import Mathlib

/-!
Shallow embedding of the co-change analysis core of the ccan repository
(crate `ccan`: matrix.rs, changes.rs, naive.rs, bayes.rs, predict.rs),
together with theorems settling the specification claims.

Numeric convention: the 64-bit floats of the source are idealized as real
numbers.  The one place where the IEEE distinction between a number and
NaN is observable to the claims (division of a column-sum vector by the
count of matched columns in the ripple predictor) is modelled by an
explicit IEEE-style value type `F64` whose division mirrors the IEEE
rules for finite operands (x / 0 is NaN when x = 0 and a signed infinity
otherwise).
-/

namespace Ccan

/-- IEEE-style double value: a finite real, NaN, or a signed infinity. -/
inductive F64 : Type where
  | fin (x : ℝ)
  | nan
  | pinf
  | ninf

/-- Division of two finite doubles, keeping the IEEE special cases that can
arise from finite operands: 0/0 is NaN, x/0 with x nonzero is a signed
infinity, everything else is the real quotient. -/
noncomputable def fdiv (a b : ℝ) : F64 :=
  if b = 0 then
    (if a = 0 then F64.nan else if 0 < a then F64.pinf else F64.ninf)
  else F64.fin (a / b)

/-- Decide an arbitrary proposition classically; models the comparisons the
source performs on runtime floats inside filters. -/
noncomputable def cdecide (p : Prop) : Bool := @decide p (Classical.dec p)

/-- Index of the last occurrence of a label in a list; models building a
HashMap label-to-index by enumeration, where a later index wins
(matrix.rs, `NamedMatrix::new`). -/
def lastIndexOf {α : Type} [DecidableEq α] (x : α) : List α → Option ℕ
  | [] => none
  | a :: as =>
    match lastIndexOf x as with
    | some k => some (k + 1)
    | none => if a = x then some 0 else none

/-- Labeled dense matrix (matrix.rs, `NamedMatrix<R, C>`). The grid is a
total function on positions; cells outside the shape
`(row_names.length, col_names.length)` are never written and stay 0,
matching the zero-fill of `Array2::zeros`. -/
structure NamedMatrix (R C : Type) where
  matrix : ℕ → ℕ → ℝ
  row_names : List R
  col_names : List C
  row_dimname : Option String
  col_dimname : Option String

/-- Fresh zero-filled labeled matrix (matrix.rs, `NamedMatrix::new`). -/
def NamedMatrix.new {R C : Type} (row_names : List R) (col_names : List C)
    (row_dimname col_dimname : Option String) : NamedMatrix R C :=
  { matrix := fun _ _ => 0
    row_names := row_names
    col_names := col_names
    row_dimname := row_dimname
    col_dimname := col_dimname }

/-- matrix.rs, `NamedMatrix::index_of_row`. -/
def NamedMatrix.index_of_row {R C : Type} [DecidableEq R]
    (m : NamedMatrix R C) (row : R) : Option ℕ :=
  lastIndexOf row m.row_names

/-- matrix.rs, `NamedMatrix::index_of_col`. -/
def NamedMatrix.index_of_col {R C : Type} [DecidableEq C]
    (m : NamedMatrix R C) (col : C) : Option ℕ :=
  lastIndexOf col m.col_names

/-- Sum of row `i` of the grid (ndarray `.row(i).sum()`). -/
def NamedMatrix.rowSum {R C : Type} (m : NamedMatrix R C) (i : ℕ) : ℝ :=
  ∑ j ∈ Finset.range m.col_names.length, m.matrix i j

/-- Sum of column `j` of the grid (ndarray `.column(j).sum()`). -/
def NamedMatrix.colSum {R C : Type} (m : NamedMatrix R C) (j : ℕ) : ℝ :=
  ∑ i ∈ Finset.range m.row_names.length, m.matrix i j

/-- Insert into a sorted list, keeping order (helper for `sortList`). -/
def insertSorted {α : Type} [LinearOrder α] (x : α) : List α → List α
  | [] => [x]
  | y :: ys => if x ≤ y then x :: y :: ys else y :: insertSorted x ys

/-- Ascending comparison sort; models `Vec::sort`. -/
def sortList {α : Type} [LinearOrder α] (l : List α) : List α :=
  l.foldr insertSorted []

/-- Remove consecutive duplicates; models `Vec::dedup`. -/
def dedupAdj {α : Type} [DecidableEq α] : List α → List α
  | [] => []
  | [a] => [a]
  | a :: b :: rest =>
    if a = b then dedupAdj (b :: rest) else a :: dedupAdj (b :: rest)

/-- Algorithm selection (model.rs, `ModelTypes`). -/
inductive ModelTypes : Type where
  | naive
  | bayes
  | mixed
  | nop
deriving DecidableEq

/-- Co-change options (cochanges.rs, `CoChangesOpt`). -/
structure CoChangesOpt : Type where
  changes_min : ℕ
  freq_min : ℕ
  algorithm : ModelTypes

/-- Square file-by-file co-change matrix (cochanges.rs, `CCMatrix`).
Labels are kept generic: the source interns file paths as shared strings,
and nothing in the analysed code depends on the labels beyond equality
and ordering. -/
abbrev CCMatrix (L : Type) := NamedMatrix L L

/-- Co-change bundle (cochanges.rs, `CoChanges`). -/
structure CoChanges (L : Type) : Type where
  freqs : CCMatrix L
  probs : CCMatrix L

/-- Changes artifact (changes.rs, `Changes`): the file-by-bin change matrix
plus the per-file change count and prior.  Bin timestamps are UTC seconds
modelled as integers; `c_freq` and `c_prob` model the length-n arrays as
total functions that are 0 beyond the row count. -/
structure Changes (L : Type) : Type where
  freqs : NamedMatrix L ℤ
  c_freq : ℕ → ℤ
  c_prob : ℕ → ℝ

/-- One diff record keyed by its bin timestamp, reduced to what the core
consumes (bettergit.rs, `GroupedBetterDiffs`): the bin key and the list of
new-path files.  The map is modelled as an association list; HashMap keys
are unique, but none of the proved facts needs that. -/
abbrev GroupedBetterDiffs (L : Type) := List (ℤ × List L)

/-- Number of times the increment loop of `Changes::calculate_changes`
hits cell (r, c): one hit per occurrence of a file whose row index is r
inside a diff whose bin column index is c. -/
def changeCount {L : Type} [DecidableEq L] (rows : List L) (cols : List ℤ)
    (diffs : GroupedBetterDiffs L) (r c : ℕ) : ℕ :=
  (diffs.map (fun p =>
    if lastIndexOf p.1 cols = some c then
      (p.2.filter (fun f => lastIndexOf f rows = some r)).length
    else 0)).sum

/-- changes.rs, `Changes::from_diffs` followed by `calculate_changes` and
`calculate_c_freq_and_prob`: rows are the sorted deduplicated new-path
files, columns the sorted deduplicated bin keys, each occurrence
increments its cell by 1; then `c_freq[i]` is the row sum cast to an
integer (the `as i32` cast truncates; the sum of counts is nonnegative,
so truncation is the floor) and `c_prob[i]` divides the row sum by the
number of rows. -/
noncomputable def Changes.from_diffs {L : Type} [DecidableEq L] [LinearOrder L]
    (diffs : GroupedBetterDiffs L) : Changes L :=
  let rows := dedupAdj (sortList ((diffs.map Prod.snd).flatten))
  let cols := dedupAdj (sortList (diffs.map Prod.fst))
  let changes : NamedMatrix L ℤ :=
    { matrix := fun r c => (changeCount rows cols diffs r c : ℝ)
      row_names := rows
      col_names := cols
      row_dimname := some "files"
      col_dimname := some "dates" }
  { freqs := changes
    c_freq := fun i => if i < rows.length then ⌊changes.rowSum i⌋ else 0
    c_prob := fun i =>
      if i < rows.length then changes.rowSum i / (rows.length : ℝ) else 0 }

/-- Modelled from the spec: the `n_vers` field of `Changes` read by
bayes.rs is absent from the `Changes` declaration in src/changes.rs; the
spec fixes it as the number of bins ("`n_vers` is the number of bins"). -/
def Changes.n_vers {L : Type} (changes : Changes L) : ℝ :=
  (changes.freqs.col_names.length : ℝ)

/-- Whole days of a duration given in seconds (chrono
`Duration::num_days`, which truncates toward zero). -/
def numDays (secs : ℤ) : ℤ := secs.tdiv 86400

namespace NaiveModel

/-- naive.rs, `NaiveModel::dates_distance`: zero-fill, write the whole-day
gap at every cell below the diagonal, then element-wise add 1, apply the
smoothing function, and take the reciprocal. -/
noncomputable def dates_distance (dates : List ℤ) (smooth : ℝ → ℝ) :
    ℕ → ℕ → ℝ :=
  fun i j =>
    1 / smooth
      ((if j < i then (numDays (dates.getD i 0 - dates.getD j 0) : ℝ) else 0)
        + 1)

/-- naive.rs, `NaiveModel::filter_freqs`: zero every cell that is at most
`min_freq`. -/
noncomputable def filter_freqs {L : Type} (freqs : CCMatrix L)
    (min_freq : ℕ) : CCMatrix L :=
  { freqs with
    matrix := fun i j =>
      if freqs.matrix i j ≤ (min_freq : ℝ) then 0 else freqs.matrix i j }

/-- naive.rs, `NaiveModel::cc_coefficient`: over the `n` bins, skip outer
bins i where `f1 i < 1e-5`, and for inner bins `j ≤ i` where
`|f2 j - 1| < 1e-5` accumulate the dates-distance weight. -/
noncomputable def cc_coefficient (n : ℕ) (f1 f2 : ℕ → ℝ)
    (dates_dist : ℕ → ℕ → ℝ) : ℝ :=
  ∑ i ∈ Finset.range n,
    if f1 i < 1e-5 then 0
    else ∑ j ∈ Finset.range (i + 1),
      if |f2 j - 1| < 1e-5 then dates_dist i j else 0

end NaiveModel

/-- Shared row filtering of naive.rs and bayes.rs `calculate_freqs`: keep,
in order, the row labels whose row (looked up through `index_of_row`) sums
to at least `changes_min`. -/
noncomputable def filtRowNames {L : Type} [DecidableEq L]
    (changes : NamedMatrix L ℤ) (changes_min : ℕ) : List L :=
  changes.row_names.filter (fun row =>
    match changes.index_of_row row with
    | some i => cdecide ((changes_min : ℝ) ≤ changes.rowSum i)
    | none => false)

namespace NaiveModel

/-- Body of naive.rs `calculate_freqs` before the final `filter_freqs`
call: the square matrix over the filtered labels whose off-diagonal cell
(i, j) is the co-change coefficient of rows i and j of the changes grid
weighted by the dates-distance matrix with the square-root smoother. -/
noncomputable def calculate_freqs_pre {L : Type} [DecidableEq L]
    (changes : Changes L) (opts : CoChangesOpt) : CCMatrix L :=
  let c := changes.freqs
  let filt_row_names := filtRowNames c opts.changes_min
  let n := filt_row_names.length
  let dates_dist := dates_distance c.col_names Real.sqrt
  { matrix := fun i j =>
      if i < n ∧ j < n ∧ i ≠ j then
        cc_coefficient c.col_names.length (c.matrix i) (c.matrix j) dates_dist
      else 0
    row_names := filt_row_names
    col_names := filt_row_names
    row_dimname := some "impacted"
    col_dimname := some "changed" }

/-- naive.rs, `NaiveModel::calculate_freqs` (CCFreqsCalculator). -/
noncomputable def calculate_freqs {L : Type} [DecidableEq L]
    (changes : Changes L) (opts : CoChangesOpt) : CCMatrix L :=
  filter_freqs (calculate_freqs_pre changes opts) opts.freq_min

/-- naive.rs, `NaiveModel::calculate_probs` (CCProbsCalculator): each
column of the frequency matrix is divided by its column sum. -/
noncomputable def calculate_probs {L : Type} (freqs : CCMatrix L) :
    CCMatrix L :=
  { matrix := fun u v =>
      if v < freqs.col_names.length ∧ u < freqs.row_names.length then
        freqs.matrix u v / freqs.colSum v
      else 0
    row_names := freqs.row_names
    col_names := freqs.row_names
    row_dimname := some "impacted"
    col_dimname := some "changing" }

end NaiveModel

namespace BayesianModel

/-- bayes.rs, `co_change`: the number of bins in which both rows are
positive. -/
noncomputable def co_change (m : ℕ) (f1 f2 : ℕ → ℝ) : ℝ :=
  (((List.range m).filter (fun k => cdecide (0 < f1 k ∧ 0 < f2 k))).length : ℝ)

/-- bayes.rs, `BayesianModel::calculate_freqs` (CCFreqsCalculator): same
row filtering, off-diagonal joint change counts, then the shared
`filter_freqs` floor. -/
noncomputable def calculate_freqs {L : Type} [DecidableEq L]
    (changes : Changes L) (opts : CoChangesOpt) : CCMatrix L :=
  let c := changes.freqs
  let filt_row_names := filtRowNames c opts.changes_min
  let n := filt_row_names.length
  NaiveModel.filter_freqs
    { matrix := fun i j =>
        if i < n ∧ j < n ∧ i ≠ j then
          co_change c.col_names.length (c.matrix i) (c.matrix j)
        else 0
      row_names := filt_row_names
      col_names := filt_row_names
      row_dimname := some "impacted"
      col_dimname := some "changed" }
    opts.freq_min

/-- bayes.rs, `BayesianModel::calculate_probs` (CCProbsCalculator): cell
(i, j) of the zero-filled square matrix over the frequency labels is
written as `(Φ[i,j] / n_vers) * c_prob[i] / c_prob[j]` unless the prior
at i or at j is below 1e-6, in which case the row (resp. cell) is
skipped and the zero remains. -/
noncomputable def calculate_probs {L : Type} (changes : Changes L)
    (freqs : CCMatrix L) : CCMatrix L :=
  let n := freqs.row_names.length
  { matrix := fun i j =>
      if i < n ∧ j < n then
        if changes.c_prob i < 1e-6 ∨ changes.c_prob j < 1e-6 then 0
        else freqs.matrix i j / changes.n_vers
              * changes.c_prob i / changes.c_prob j
      else 0
    row_names := freqs.row_names
    col_names := freqs.row_names
    row_dimname := some "impacted"
    col_dimname := some "changing" }

end BayesianModel

/-- Prediction window (predict.rs, `PredictionOpt`): inclusive bounds on
the bin timestamps. -/
structure PredictionOpt : Type where
  since_changes : ℤ
  until_changes : ℤ

/-- Ripple result (predict.rs, `ChangeRippleProbabilities`). -/
structure ChangeRippleProbabilities (L : Type) : Type where
  changing_files : List L
  predictions : List (L × F64)

namespace NaivePrediction

/-- predict.rs, `NaivePrediction::predict` (and the identical
`RippleChangePredictor` impl in naive.rs): translate the changed files
into column indices of the probability matrix, sum the selected columns
element-wise, divide by the number of matched columns, and pair each row
label with its entry. -/
noncomputable def predict {L : Type} [DecidableEq L] (cc : CoChanges L)
    (changed_files : List L) : ChangeRippleProbabilities L :=
  let indices := changed_files.filterMap (fun c => cc.probs.index_of_col c)
  let total := fun u => ((indices.map (fun i => cc.probs.matrix u i)).sum : ℝ)
  let n := (indices.length : ℝ)
  { changing_files := changed_files
    predictions := cc.probs.row_names.enum.map
      (fun p => (p.2, fdiv (total p.1) n)) }

/-- Index list of the bins falling in the inclusive prediction window
(the `indices` binding of predict.rs `ChangePredictor::predict0`). -/
noncomputable def windowIndices (cols : List ℤ) (opt : PredictionOpt) :
    List ℕ :=
  (cols.enum.filter (fun p =>
    cdecide (opt.since_changes ≤ p.2 ∧ p.2 ≤ opt.until_changes))).map
    Prod.fst

/-- predict.rs, `ChangePredictor::predict0` instantiated with
`NaivePrediction`: collect the indices of the bins inside the inclusive
window, return the empty ripple if there are none, otherwise sum each
row over the half-open span from the first window index
(`indices[0]`, here `headD`) to the last (`indices[len - 1]`, here
`getLastD`) and keep the rows with a positive sum as the changing
files. -/
noncomputable def predict0 {L : Type} [DecidableEq L] (cc : CoChanges L)
    (changes : Changes L) (opt : PredictionOpt) :
    ChangeRippleProbabilities L :=
  let indices := windowIndices changes.freqs.col_names opt
  if indices = [] then { changing_files := [], predictions := [] }
  else
    let start := indices.headD 0
    let stop := indices.getLastD 0
    let changed_files := (changes.freqs.row_names.enum.filter (fun p =>
      cdecide (0 < ∑ j ∈ Finset.Ico start stop,
        changes.freqs.matrix p.1 j))).map Prod.snd
    predict cc changed_files

end NaivePrediction

/-- Modelled from the spec: the prediction option record consumed by the
analysis entry point.  lib.rs and ccan-cli/args.rs construct a
`PredictionOpt` with fields `skip`, `since_changes`, `until_changes` and
`algorithm`, but the file declaring that version of the record is absent
from src/ (the predict.rs present there declares only the two bounds);
the fields follow args.rs and spec section 6. -/
structure PredictionOptV2 : Type where
  skip : Bool
  since_changes : ℤ
  until_changes : ℤ
  algorithm : ModelTypes

/-- Modelled from the spec: the ripple entry point
(`RippleChangeProbabilities::from`, called in lib.rs but absent from
src/).  Spec section 4.5: "If `skip`, return an empty ripple (empty
changing-files list, empty vector)"; otherwise it runs the shared window
prediction of predict.rs on the window bounds. -/
noncomputable def rippleFrom {L : Type} [DecidableEq L] (cc : CoChanges L)
    (changes : Changes L) (opt : PredictionOptV2) :
    ChangeRippleProbabilities L :=
  if opt.skip then { changing_files := [], predictions := [] }
  else NaivePrediction.predict0 cc changes
    { since_changes := opt.since_changes, until_changes := opt.until_changes }

/-! Concrete sample objects used by the witness theorems. -/

/-- Empty square labeled matrix over natural-number labels. -/
noncomputable def emptyCC : CCMatrix ℕ :=
  NamedMatrix.new [] [] none none

/-- Sample co-change bundle with a single row and column labeled 7 whose
probability entry is 1/2. -/
noncomputable def sampleCC : CoChanges ℕ :=
  { freqs := { matrix := fun _ _ => 3, row_names := [7], col_names := [7],
               row_dimname := none, col_dimname := none }
    probs := { matrix := fun _ _ => 1 / 2, row_names := [7], col_names := [7],
               row_dimname := none, col_dimname := none } }

/-- Sample changes artifact with one file labeled 5 and bins at seconds 0
and 86400, every cell equal to 1. -/
noncomputable def sampleChanges : Changes ℕ :=
  { freqs := { matrix := fun _ _ => 1, row_names := [5],
               col_names := [0, 86400],
               row_dimname := some "files", col_dimname := some "dates" }
    c_freq := fun _ => 2
    c_prob := fun _ => 2 }

/-- Grouped diffs exhibiting the row-index slip of the naive
calculate_freqs: three files 0, 1, 2 over two bins at seconds 0 and 3600
of the same day; file 0 changes once, file 1 twice, file 2 twice (twice
inside one bin). -/
def bugDiffs : GroupedBetterDiffs ℕ := [(0, [0, 1]), (3600, [1, 2, 2])]

/-- The changes grid built from `bugDiffs`: rows [1, 0], [1, 1], [0, 2]
for files 0, 1, 2 over bins 0 and 3600. -/
noncomputable def bugMatrix : NamedMatrix ℕ ℤ :=
  { matrix := fun r c =>
      ((([[1, 0], [1, 1], [0, 2]] : List (List ℕ)).getD r []).getD c 0 : ℝ)
    row_names := [0, 1, 2]
    col_names := [0, 3600]
    row_dimname := some "files"
    col_dimname := some "dates" }

/-- The changes artifact built from `bugDiffs` (proved below). -/
noncomputable def bugChanges : Changes ℕ :=
  { freqs := bugMatrix
    c_freq := fun i => (([1, 2, 2] : List ℕ).getD i 0 : ℤ)
    c_prob := fun i => ((([1, 2, 2] : List ℕ).getD i 0 : ℕ) : ℝ) / 3 }

/-! Helper lemmas shared by the claim theorems. -/

theorem cdecide_eq_true_iff (p : Prop) : cdecide p = true ↔ p := by
  unfold cdecide
  exact @decide_eq_true_iff p (Classical.dec p)

theorem cdecide_eq_false_iff (p : Prop) : cdecide p = false ↔ ¬p := by
  rw [← Bool.not_eq_true, cdecide_eq_true_iff]

theorem lastIndexOf_lt_length {α : Type} [DecidableEq α] (x : α) :
    ∀ (l : List α) (k : ℕ), lastIndexOf x l = some k → k < l.length := by
  intro l
  induction l with
  | nil => intro k h; simp [lastIndexOf] at h
  | cons a as ih =>
    intro k h
    simp only [lastIndexOf] at h
    cases hrec : lastIndexOf x as with
    | some m =>
      rw [hrec] at h
      simp only [Option.some.injEq] at h
      have := ih m hrec
      simp only [List.length_cons]
      omega
    | none =>
      rw [hrec] at h
      by_cases hax : a = x
      · simp only [hax, if_true, Option.some.injEq] at h
        simp [← h]
      · simp [hax] at h

theorem lastIndexOf_eq_none_iff {α : Type} [DecidableEq α] (x : α) :
    ∀ (l : List α), lastIndexOf x l = none ↔ x ∉ l := by
  intro l
  induction l with
  | nil => simp [lastIndexOf]
  | cons a as ih =>
    simp only [lastIndexOf, List.mem_cons, not_or]
    cases hrec : lastIndexOf x as with
    | some m =>
      have hx : x ∈ as := by
        by_contra hcon
        have hnone := ih.mpr hcon
        rw [hnone] at hrec
        exact Option.noConfusion hrec
      exact iff_of_false (by simp) (fun h => h.2 hx)
    | none =>
      by_cases hax : a = x
      · rw [if_pos hax]
        exact iff_of_false (by simp) (fun h => h.1 hax.symm)
      · rw [if_neg hax]
        exact iff_of_true rfl ⟨fun h => hax h.symm, ih.mp hrec⟩

theorem headD_mem {α : Type} {l : List α} (d : α) (h : l ≠ []) :
    l.headD d ∈ l := by
  cases l with
  | nil => exact absurd rfl h
  | cons a as => simp

theorem getLastD_mem {α : Type} :
    ∀ (l : List α) (d : α), l ≠ [] → l.getLastD d ∈ l := by
  intro l
  induction l with
  | nil => intro d h; exact absurd rfl h
  | cons a as ih =>
    intro d _
    rw [List.getLastD_cons]
    cases has : as with
    | nil => subst has; simp [List.getLastD]
    | cons b bs =>
      subst has
      exact List.mem_cons_of_mem a (ih a (by simp))

theorem getLastD_irrel {α : Type} {l : List α} (h : l ≠ []) (d1 d2 : α) :
    l.getLastD d1 = l.getLastD d2 := by
  cases l with
  | nil => exact absurd rfl h
  | cons a as => rw [List.getLastD_cons, List.getLastD_cons]

theorem sorted_headD_le {l : List ℕ} (hs : l.Sorted (· < ·)) {x : ℕ}
    (hx : x ∈ l) : l.headD 0 ≤ x := by
  cases l with
  | nil => simp at hx
  | cons a as =>
    rw [List.sorted_cons] at hs
    rcases List.mem_cons.mp hx with h | h
    · simp [h]
    · exact le_of_lt (hs.1 x h)

theorem sorted_le_getLastD :
    ∀ {l : List ℕ}, l.Sorted (· < ·) → ∀ {x : ℕ}, x ∈ l →
      x ≤ l.getLastD 0 := by
  intro l
  induction l with
  | nil => intro _ x hx; simp at hx
  | cons a as ih =>
    intro hs x hx
    rw [List.sorted_cons] at hs
    rw [List.getLastD_cons]
    cases has : as with
    | nil =>
      subst has
      rcases List.mem_cons.mp hx with h | h
      · simp [h, List.getLastD]
      · simp at h
    | cons b bs =>
      subst has
      rcases List.mem_cons.mp hx with h | h
      · subst h
        have hmem := getLastD_mem (b :: bs) x (by simp)
        exact le_of_lt (hs.1 _ hmem)
      · rw [getLastD_irrel (by simp) a 0]
        exact ih hs.2 h

theorem windowIndices_sorted (cols : List ℤ) (opt : PredictionOpt) :
    (NaivePrediction.windowIndices cols opt).Sorted (· < ·) := by
  unfold NaivePrediction.windowIndices
  have hsub : List.Sublist
      ((cols.enum.filter (fun p =>
        cdecide (opt.since_changes ≤ p.2 ∧ p.2 ≤ opt.until_changes))).map
        Prod.fst)
      (cols.enum.map Prod.fst) :=
    (List.filter_sublist cols.enum).map Prod.fst
  rw [List.enum_map_fst] at hsub
  exact (List.pairwise_lt_range cols.length).sublist hsub

theorem windowIndices_mem (cols : List ℤ) (opt : PredictionOpt) (k : ℕ) :
    k ∈ NaivePrediction.windowIndices cols opt ↔
      k < cols.length ∧ opt.since_changes ≤ cols.getD k 0 ∧
        cols.getD k 0 ≤ opt.until_changes := by
  unfold NaivePrediction.windowIndices
  constructor
  · intro hk
    rcases List.mem_map.mp hk with ⟨⟨i, x⟩, hmem, hfst⟩
    rcases List.mem_filter.mp hmem with ⟨henum, hp⟩
    have hgx := List.mk_mem_enum_iff_getElem?.mp henum
    have hilen : i < cols.length := by
      rcases List.getElem?_eq_some_iff.mp hgx with ⟨h, _⟩
      exact h
    rcases List.getElem?_eq_some_iff.mp hgx with ⟨hlt, hval⟩
    have hprop := (cdecide_eq_true_iff _).mp hp
    subst hfst
    refine ⟨hilen, ?_, ?_⟩
    · rw [List.getD_eq_getElem cols 0 hilen, hval]; exact hprop.1
    · rw [List.getD_eq_getElem cols 0 hilen, hval]; exact hprop.2
  · rintro ⟨hk, h1, h2⟩
    refine List.mem_map.mpr ⟨(k, cols.getD k 0), List.mem_filter.mpr ⟨?_, ?_⟩, rfl⟩
    · refine List.mk_mem_enum_iff_getElem?.mpr ?_
      rw [List.getD_eq_getElem cols 0 hk]
      exact List.getElem?_eq_some_iff.mpr ⟨hk, rfl⟩
    · exact (cdecide_eq_true_iff _).mpr ⟨h1, h2⟩

/-! Claim theorems. -/

/-- C8: for every co-change bundle and changes matrix, if the skip flag of
the prediction option record is set, the ripple predictor returns an empty
ripple (empty changing-files list and empty prediction vector), regardless
of the window bounds and of the matrices. -/
theorem C8_skip_gives_empty_ripple {L : Type} [DecidableEq L]
    (cc : CoChanges L) (changes : Changes L) (opt : PredictionOptV2)
    (h : opt.skip = true) :
    rippleFrom cc changes opt =
      { changing_files := ([] : List L), predictions := [] } := by
  simp [rippleFrom, h]

theorem C8_skip_gives_empty_ripple_witness :
    ((⟨true, 10, 20, ModelTypes.naive⟩ : PredictionOptV2).skip = true) ∧
    rippleFrom sampleCC sampleChanges ⟨true, 10, 20, ModelTypes.naive⟩ =
      { changing_files := ([] : List ℕ), predictions := [] } :=
  ⟨rfl, C8_skip_gives_empty_ripple sampleCC sampleChanges _ rfl⟩

/-- C9: for every co-change bundle whose probability matrix has at least
one row and every changed-files list none of whose entries is a column
label of the probability matrix, the naive prediction returns one pair
per row and every value is NaN: the zero column-sum vector is divided by
the zero count of matched columns. -/
theorem C9_unmatched_changed_files_give_nan {L : Type} [DecidableEq L]
    (cc : CoChanges L) (changed_files : List L)
    (_hrows : 0 < cc.probs.row_names.length)
    (hnc : ∀ c ∈ changed_files, c ∉ cc.probs.col_names) :
    (NaivePrediction.predict cc changed_files).predictions.length =
        cc.probs.row_names.length ∧
      ∀ p ∈ (NaivePrediction.predict cc changed_files).predictions,
        p.2 = F64.nan := by
  have hidx : changed_files.filterMap (fun c => cc.probs.index_of_col c)
      = [] := by
    rw [List.filterMap_eq_nil_iff]
    intro c hc
    unfold NamedMatrix.index_of_col
    exact (lastIndexOf_eq_none_iff c cc.probs.col_names).mpr (hnc c hc)
  constructor
  · simp [NaivePrediction.predict, hidx, List.enum_length]
  · intro p hp
    simp only [NaivePrediction.predict, hidx, List.map_nil, List.sum_nil,
      List.length_nil, Nat.cast_zero, List.mem_map] at hp
    rcases hp with ⟨q, _, rfl⟩
    simp [fdiv]

theorem C9_unmatched_changed_files_give_nan_witness :
    0 < sampleCC.probs.row_names.length ∧
    (∀ c ∈ [9], c ∉ sampleCC.probs.col_names) ∧
    ((NaivePrediction.predict sampleCC [9]).predictions.length =
        sampleCC.probs.row_names.length ∧
      ∀ p ∈ (NaivePrediction.predict sampleCC [9]).predictions,
        p.2 = F64.nan) :=
  ⟨by decide, by decide,
    C9_unmatched_changed_files_give_nan sampleCC [9] (by decide) (by decide)⟩

/-- C2: for every changes matrix and prediction options, if no bin
timestamp lies in the inclusive window then predict0 returns an empty
changing-files list and an empty prediction vector; otherwise, with
start the smallest and stop the largest index of a bin inside the
window, the returned changing-files list contains exactly the files, in
row order, whose change counts over the half-open span [start, stop)
sum to a positive value — the rightmost matching bin being excluded. -/
theorem C2_predict0_window {L : Type} [DecidableEq L] (cc : CoChanges L)
    (changes : Changes L) (opt : PredictionOpt) :
    ((∀ d ∈ changes.freqs.col_names,
        ¬(opt.since_changes ≤ d ∧ d ≤ opt.until_changes)) →
      NaivePrediction.predict0 cc changes opt =
        { changing_files := [], predictions := [] }) ∧
    (∀ s e : ℕ,
      (s < changes.freqs.col_names.length ∧
        opt.since_changes ≤ changes.freqs.col_names.getD s 0 ∧
        changes.freqs.col_names.getD s 0 ≤ opt.until_changes) →
      (∀ k, k < changes.freqs.col_names.length →
        opt.since_changes ≤ changes.freqs.col_names.getD k 0 →
        changes.freqs.col_names.getD k 0 ≤ opt.until_changes → s ≤ k) →
      (e < changes.freqs.col_names.length ∧
        opt.since_changes ≤ changes.freqs.col_names.getD e 0 ∧
        changes.freqs.col_names.getD e 0 ≤ opt.until_changes) →
      (∀ k, k < changes.freqs.col_names.length →
        opt.since_changes ≤ changes.freqs.col_names.getD k 0 →
        changes.freqs.col_names.getD k 0 ≤ opt.until_changes → k ≤ e) →
      (NaivePrediction.predict0 cc changes opt).changing_files =
        (changes.freqs.row_names.enum.filter (fun p =>
          cdecide (0 < ∑ j ∈ Finset.Ico s e,
            changes.freqs.matrix p.1 j))).map Prod.snd) := by
  constructor
  · intro h
    have hW : NaivePrediction.windowIndices changes.freqs.col_names opt
        = [] := by
      rw [List.eq_nil_iff_forall_not_mem]
      intro k hk
      rw [windowIndices_mem] at hk
      obtain ⟨hk1, hk2, hk3⟩ := hk
      have hd : changes.freqs.col_names.getD k 0 ∈
          changes.freqs.col_names := by
        rw [List.getD_eq_getElem _ _ hk1]
        exact List.getElem_mem hk1
      exact h _ hd ⟨hk2, hk3⟩
    simp [NaivePrediction.predict0, hW]
  · intro s e hs hsmin he hemax
    set W := NaivePrediction.windowIndices changes.freqs.col_names opt
      with hWdef
    have hsmem : s ∈ W := (windowIndices_mem _ _ _).mpr hs
    have hne : W ≠ [] := List.ne_nil_of_mem hsmem
    have hsort : W.Sorted (· < ·) := windowIndices_sorted _ _
    have hhead : W.headD 0 = s := by
      refine le_antisymm (sorted_headD_le hsort hsmem) ?_
      have hmem0 : W.headD 0 ∈ W := headD_mem 0 hne
      have h2 := (windowIndices_mem _ _ _).mp hmem0
      exact hsmin _ h2.1 h2.2.1 h2.2.2
    have hlast : W.getLastD 0 = e := by
      have hmeml : W.getLastD 0 ∈ W := getLastD_mem W 0 hne
      have h2 := (windowIndices_mem _ _ _).mp hmeml
      have hememW : e ∈ W := (windowIndices_mem _ _ _).mpr he
      exact le_antisymm (hemax _ h2.1 h2.2.1 h2.2.2)
        (sorted_le_getLastD hsort hememW)
    show (NaivePrediction.predict0 cc changes opt).changing_files = _
    unfold NaivePrediction.predict0
    rw [← hWdef, if_neg hne, hhead, hlast]
    rfl

theorem C2_predict0_window_witness :
    ((∀ d ∈ sampleChanges.freqs.col_names, ¬((100:ℤ) ≤ d ∧ d ≤ 200)) ∧
      NaivePrediction.predict0 sampleCC sampleChanges ⟨100, 200⟩ =
        { changing_files := [], predictions := [] }) ∧
    ((0 < sampleChanges.freqs.col_names.length ∧
        (0:ℤ) ≤ sampleChanges.freqs.col_names.getD 0 0 ∧
        sampleChanges.freqs.col_names.getD 0 0 ≤ 100000) ∧
      (1 < sampleChanges.freqs.col_names.length ∧
        (0:ℤ) ≤ sampleChanges.freqs.col_names.getD 1 0 ∧
        sampleChanges.freqs.col_names.getD 1 0 ≤ 100000) ∧
      (NaivePrediction.predict0 sampleCC sampleChanges
          ⟨0, 100000⟩).changing_files =
        (sampleChanges.freqs.row_names.enum.filter (fun p =>
          cdecide (0 < ∑ j ∈ Finset.Ico 0 1,
            sampleChanges.freqs.matrix p.1 j))).map Prod.snd) :=
  ⟨⟨by decide,
    (C2_predict0_window sampleCC sampleChanges ⟨100, 200⟩).1 (by decide)⟩,
   by decide, by decide,
    (C2_predict0_window sampleCC sampleChanges ⟨0, 100000⟩).2 0 1
      (by decide)
      (fun k _ _ _ => Nat.zero_le k)
      (by decide)
      (fun k hk _ _ => by
        have hlen : sampleChanges.freqs.col_names.length = 2 := by decide
        omega)⟩

/-- C10: for every changes matrix and window containing exactly one bin
index, predict0 does not take the empty-window early return, yet start
equals stop, so the half-open sum ranges over no bins: the changing-files
list is empty while the prediction vector still has one entry per row of
the probability matrix. -/
theorem C10_single_bin_window_empty_changing {L : Type} [DecidableEq L]
    (cc : CoChanges L) (changes : Changes L) (opt : PredictionOpt) (k : ℕ)
    (hk : k < changes.freqs.col_names.length ∧
      opt.since_changes ≤ changes.freqs.col_names.getD k 0 ∧
      changes.freqs.col_names.getD k 0 ≤ opt.until_changes)
    (huniq : ∀ j, j < changes.freqs.col_names.length →
      opt.since_changes ≤ changes.freqs.col_names.getD j 0 →
      changes.freqs.col_names.getD j 0 ≤ opt.until_changes → j = k) :
    (NaivePrediction.predict0 cc changes opt).changing_files = [] ∧
    (NaivePrediction.predict0 cc changes opt).predictions.length =
      cc.probs.row_names.length := by
  set W := NaivePrediction.windowIndices changes.freqs.col_names opt
    with hWdef
  have hkmem : k ∈ W := (windowIndices_mem _ _ _).mpr hk
  have hne : W ≠ [] := List.ne_nil_of_mem hkmem
  have hhead : W.headD 0 = k := by
    have hmem0 : W.headD 0 ∈ W := headD_mem 0 hne
    have h2 := (windowIndices_mem _ _ _).mp hmem0
    exact huniq _ h2.1 h2.2.1 h2.2.2
  have hlast : W.getLastD 0 = k := by
    have hmeml : W.getLastD 0 ∈ W := getLastD_mem W 0 hne
    have h2 := (windowIndices_mem _ _ _).mp hmeml
    exact huniq _ h2.1 h2.2.1 h2.2.2
  have hfilter : (changes.freqs.row_names.enum.filter (fun p =>
      cdecide (0 < ∑ j ∈ Finset.Ico k k,
        changes.freqs.matrix p.1 j))) = [] := by
    rw [List.filter_eq_nil_iff]
    intro p _
    rw [Bool.not_eq_true, cdecide_eq_false_iff]
    simp
  constructor
  · show (NaivePrediction.predict0 cc changes opt).changing_files = []
    unfold NaivePrediction.predict0
    rw [← hWdef, if_neg hne, hhead, hlast]
    show (NaivePrediction.predict cc _).changing_files = []
    unfold NaivePrediction.predict
    rw [hfilter]
    rfl
  · show (NaivePrediction.predict0 cc changes opt).predictions.length = _
    unfold NaivePrediction.predict0
    rw [← hWdef, if_neg hne, hhead, hlast]
    show (NaivePrediction.predict cc _).predictions.length = _
    unfold NaivePrediction.predict
    simp [List.enum_length]

theorem C10_single_bin_window_empty_changing_witness :
    (0 < sampleChanges.freqs.col_names.length ∧
      (0:ℤ) ≤ sampleChanges.freqs.col_names.getD 0 0 ∧
      sampleChanges.freqs.col_names.getD 0 0 ≤ 10) ∧
    ((NaivePrediction.predict0 sampleCC sampleChanges
        ⟨0, 10⟩).changing_files = [] ∧
      (NaivePrediction.predict0 sampleCC sampleChanges
        ⟨0, 10⟩).predictions.length = sampleCC.probs.row_names.length) :=
  ⟨by decide,
    C10_single_bin_window_empty_changing sampleCC sampleChanges ⟨0, 10⟩ 0
      (by decide)
      (fun j hj h1 h2 => by
        by_contra hcon
        have hj2 : j = 1 := by
          have : sampleChanges.freqs.col_names.length = 2 := by decide
          omega
        subst hj2
        have : ¬((0:ℤ) ≤ sampleChanges.freqs.col_names.getD 1 0 ∧
            sampleChanges.freqs.col_names.getD 1 0 ≤ 10) := by decide
        exact this ⟨h1, h2⟩)⟩

/-- C3: the Bayesian calculate_probs returns a matrix with the frequency
labels on both axes in which, at positions (i, j) inside the shape whose
priors are both at least 1e-6, the entry is
`(Φ[i,j] / n_vers) * c_prob[i] / c_prob[j]`, and the entry is 0 whenever
either prior is below 1e-6. -/
theorem C3_bayes_probs_formula {L : Type} (changes : Changes L)
    (freqs : CCMatrix L) (i j : ℕ) (hi : i < freqs.row_names.length)
    (hj : j < freqs.row_names.length) :
    (BayesianModel.calculate_probs changes freqs).row_names =
        freqs.row_names ∧
    (BayesianModel.calculate_probs changes freqs).col_names =
        freqs.row_names ∧
    ((1e-6 : ℝ) ≤ changes.c_prob i → (1e-6 : ℝ) ≤ changes.c_prob j →
      (BayesianModel.calculate_probs changes freqs).matrix i j =
        freqs.matrix i j / changes.n_vers * changes.c_prob i /
          changes.c_prob j) ∧
    ((changes.c_prob i < 1e-6 ∨ changes.c_prob j < 1e-6) →
      (BayesianModel.calculate_probs changes freqs).matrix i j = 0) := by
  refine ⟨rfl, rfl, ?_, ?_⟩
  · intro h1 h2
    show (if i < freqs.row_names.length ∧ j < freqs.row_names.length then _
      else _) = _
    rw [if_pos ⟨hi, hj⟩, if_neg]
    rw [not_or]
    exact ⟨not_lt.mpr h1, not_lt.mpr h2⟩
  · intro h
    show (if i < freqs.row_names.length ∧ j < freqs.row_names.length then _
      else _) = _
    rw [if_pos ⟨hi, hj⟩, if_pos h]

theorem C3_bayes_probs_formula_witness :
    0 < sampleCC.freqs.row_names.length ∧
    (1e-6 : ℝ) ≤ sampleChanges.c_prob 0 ∧
    (BayesianModel.calculate_probs sampleChanges sampleCC.freqs).matrix 0 0 =
      sampleCC.freqs.matrix 0 0 / sampleChanges.n_vers *
        sampleChanges.c_prob 0 / sampleChanges.c_prob 0 :=
  ⟨by decide, by norm_num [sampleChanges],
    (C3_bayes_probs_formula sampleChanges sampleCC.freqs 0 0
      (by decide) (by decide)).2.2.1
      (by norm_num [sampleChanges]) (by norm_num [sampleChanges])⟩

/-- C4: the naive calculate_probs returns a matrix with the frequency
labels on both axes in which entry (u, v) is the frequency entry divided
by the column sum; hence every column with a positive sum adds up to 1
within 1e-9. -/
theorem C4_naive_probs_column_normalized {L : Type} (freqs : CCMatrix L)
    (hsq : freqs.col_names = freqs.row_names) (u v : ℕ)
    (hu : u < freqs.row_names.length) (hv : v < freqs.row_names.length) :
    (NaiveModel.calculate_probs freqs).row_names = freqs.row_names ∧
    (NaiveModel.calculate_probs freqs).col_names = freqs.row_names ∧
    (NaiveModel.calculate_probs freqs).matrix u v =
      freqs.matrix u v / freqs.colSum v ∧
    (0 < freqs.colSum v →
      |(∑ w ∈ Finset.range freqs.row_names.length,
          (NaiveModel.calculate_probs freqs).matrix w v) - 1| ≤ 1e-9) := by
  have hvcols : v < freqs.col_names.length := by rw [hsq]; exact hv
  refine ⟨rfl, rfl, ?_, ?_⟩
  · show (if v < freqs.col_names.length ∧ u < freqs.row_names.length then _
      else _) = _
    rw [if_pos ⟨hvcols, hu⟩]
  · intro hS
    have hterm : ∀ w ∈ Finset.range freqs.row_names.length,
        (NaiveModel.calculate_probs freqs).matrix w v =
          freqs.matrix w v / freqs.colSum v := by
      intro w hw
      show (if v < freqs.col_names.length ∧ w < freqs.row_names.length
        then _ else _) = _
      rw [if_pos ⟨hvcols, Finset.mem_range.mp hw⟩]
    rw [Finset.sum_congr rfl hterm, ← Finset.sum_div]
    show |freqs.colSum v / freqs.colSum v - 1| ≤ 1e-9
    rw [div_self (ne_of_gt hS)]
    norm_num

theorem C4_naive_probs_column_normalized_witness :
    (sampleCC.freqs.col_names = sampleCC.freqs.row_names) ∧
    (0 : ℝ) < sampleCC.freqs.colSum 0 ∧
    |(∑ w ∈ Finset.range sampleCC.freqs.row_names.length,
        (NaiveModel.calculate_probs sampleCC.freqs).matrix w 0) - 1|
      ≤ 1e-9 :=
  ⟨by decide, by norm_num [NamedMatrix.colSum, sampleCC],
    (C4_naive_probs_column_normalized sampleCC.freqs (by decide) 0 0
      (by decide) (by decide)).2.2.2
      (by norm_num [NamedMatrix.colSum, sampleCC])⟩

/-- C7: after calculate_freqs under either the naive or the Bayesian
model, every entry of the returned frequency matrix is either 0 or
strictly greater than freq_min, and the final floor maps entries at most
freq_min to 0 while leaving every other entry unchanged. -/
theorem C7_frequency_floor {L : Type} [DecidableEq L] (changes : Changes L)
    (opts : CoChangesOpt) (i j : ℕ) :
    ((NaiveModel.calculate_freqs changes opts).matrix i j = 0 ∨
      (opts.freq_min : ℝ) <
        (NaiveModel.calculate_freqs changes opts).matrix i j) ∧
    ((BayesianModel.calculate_freqs changes opts).matrix i j = 0 ∨
      (opts.freq_min : ℝ) <
        (BayesianModel.calculate_freqs changes opts).matrix i j) ∧
    (∀ M : CCMatrix L,
      (M.matrix i j ≤ (opts.freq_min : ℝ) →
        (NaiveModel.filter_freqs M opts.freq_min).matrix i j = 0) ∧
      ((opts.freq_min : ℝ) < M.matrix i j →
        (NaiveModel.filter_freqs M opts.freq_min).matrix i j =
          M.matrix i j)) := by
  have hfloor : ∀ (M : CCMatrix L),
      (NaiveModel.filter_freqs M opts.freq_min).matrix i j = 0 ∨
        (opts.freq_min : ℝ) <
          (NaiveModel.filter_freqs M opts.freq_min).matrix i j := by
    intro M
    simp only [NaiveModel.filter_freqs]
    by_cases h : M.matrix i j ≤ (opts.freq_min : ℝ)
    · left; rw [if_pos h]
    · right; rw [if_neg h]; exact not_le.mp h
  refine ⟨hfloor _, ?_, ?_⟩
  · show (NaiveModel.filter_freqs _ opts.freq_min).matrix i j = 0 ∨ _
    exact hfloor _
  · intro M
    constructor
    · intro h
      show (if M.matrix i j ≤ (opts.freq_min : ℝ) then (0:ℝ)
        else M.matrix i j) = 0
      rw [if_pos h]
    · intro h
      show (if M.matrix i j ≤ (opts.freq_min : ℝ) then (0:ℝ)
        else M.matrix i j) = M.matrix i j
      rw [if_neg (not_le.mpr h)]

theorem C7_frequency_floor_witness :
    sampleCC.freqs.matrix 0 0 ≤ (((5:ℕ)) : ℝ) ∧
    (NaiveModel.filter_freqs sampleCC.freqs 5).matrix 0 0 = 0 :=
  ⟨by norm_num [sampleCC],
    ((C7_frequency_floor sampleChanges
        ⟨2, 5, ModelTypes.naive⟩ 0 0).2.2 sampleCC.freqs).1
      (by norm_num [sampleCC])⟩

/-- C5: for every sorted list of bin timestamps, dates_distance with the
square-root smoother gives, strictly below the diagonal, the reciprocal
of the square root of one plus the number of whole days between the two
bins, and 1 on and above the diagonal. -/
theorem C5_dates_distance_sqrt (dates : List ℤ)
    (hsort : dates.Sorted (· ≤ ·)) (i j : ℕ)
    (hi : i < dates.length) (hj : j < dates.length) :
    (j < i → NaiveModel.dates_distance dates Real.sqrt i j =
      1 / Real.sqrt (1 +
        (((dates.getD i 0 - dates.getD j 0).toNat / 86400 : ℕ) : ℝ))) ∧
    (i ≤ j → NaiveModel.dates_distance dates Real.sqrt i j = 1) := by
  constructor
  · intro hji
    unfold NaiveModel.dates_distance
    rw [if_pos hji]
    have hle : dates.getD j 0 ≤ dates.getD i 0 := by
      rw [List.getD_eq_getElem dates 0 hi, List.getD_eq_getElem dates 0 hj]
      have := hsort.rel_get_of_le
        (show (⟨j, hj⟩ : Fin dates.length) ≤ ⟨i, hi⟩ from le_of_lt hji)
      simpa using this
    have hnn : (0:ℤ) ≤ dates.getD i 0 - dates.getD j 0 :=
      sub_nonneg.mpr hle
    have hcast : numDays (dates.getD i 0 - dates.getD j 0) =
        (((dates.getD i 0 - dates.getD j 0).toNat / 86400 : ℕ) : ℤ) := by
      unfold numDays
      rw [show dates.getD i 0 - dates.getD j 0 =
        (((dates.getD i 0 - dates.getD j 0).toNat : ℤ))
        from (Int.toNat_of_nonneg hnn).symm]
      rfl
    rw [hcast, Int.cast_natCast]
    ring_nf
  · intro hij
    unfold NaiveModel.dates_distance
    rw [if_neg (not_lt.mpr hij)]
    norm_num [Real.sqrt_one]

theorem C5_dates_distance_sqrt_witness :
    ([(0:ℤ), 345605].Sorted (· ≤ ·)) ∧
    (NaiveModel.dates_distance [(0:ℤ), 345605] Real.sqrt 1 0 =
      1 / Real.sqrt (1 +
        (((([(0:ℤ), 345605].getD 1 0 - [(0:ℤ), 345605].getD 0 0).toNat /
          86400 : ℕ)) : ℝ))) ∧
    NaiveModel.dates_distance [(0:ℤ), 345605] Real.sqrt 0 1 = 1 :=
  ⟨by decide,
    (C5_dates_distance_sqrt [(0:ℤ), 345605] (by decide) 1 0
      (by decide) (by decide)).1 (by decide),
    (C5_dates_distance_sqrt [(0:ℤ), 345605] (by decide) 0 1
      (by decide) (by decide)).2 (by decide)⟩

theorem changeCount_eq_zero_of_ge {L : Type} [DecidableEq L]
    (rows : List L) (cols : List ℤ) (diffs : GroupedBetterDiffs L)
    (r c : ℕ) (h : rows.length ≤ r) : changeCount rows cols diffs r c = 0 := by
  unfold changeCount
  apply List.sum_eq_zero
  intro x hx
  rcases List.mem_map.mp hx with ⟨p, _, rfl⟩
  by_cases hc : lastIndexOf p.1 cols = some c
  · rw [if_pos hc]
    have hnil : p.2.filter (fun f => lastIndexOf f rows = some r) = [] := by
      rw [List.filter_eq_nil_iff]
      intro f _
      simp only [decide_eq_true_eq]
      intro hcon
      exact absurd (lastIndexOf_lt_length f rows r hcon) (not_lt.mpr h)
    rw [hnil]
    rfl
  · rw [if_neg hc]

theorem changeCount_eq_zero_of_col_ge {L : Type} [DecidableEq L]
    (rows : List L) (cols : List ℤ) (diffs : GroupedBetterDiffs L)
    (r c : ℕ) (h : cols.length ≤ c) : changeCount rows cols diffs r c = 0 := by
  unfold changeCount
  apply List.sum_eq_zero
  intro x hx
  rcases List.mem_map.mp hx with ⟨p, _, rfl⟩
  have hc : ¬(lastIndexOf p.1 cols = some c) := fun hcon =>
    absurd (lastIndexOf_lt_length p.1 cols c hcon) (not_lt.mpr h)
  rw [if_neg hc]

theorem from_diffs_bugDiffs : Changes.from_diffs bugDiffs = bugChanges := by
  have hrows : dedupAdj (sortList ((bugDiffs.map Prod.snd).flatten))
      = [0, 1, 2] := by decide
  have hcols : dedupAdj (sortList (bugDiffs.map Prod.fst))
      = [(0:ℤ), 3600] := by decide
  have cc00 : changeCount [0, 1, 2] [(0:ℤ), 3600] bugDiffs 0 0 = 1 := by
    decide
  have cc01 : changeCount [0, 1, 2] [(0:ℤ), 3600] bugDiffs 0 1 = 0 := by
    decide
  have cc10 : changeCount [0, 1, 2] [(0:ℤ), 3600] bugDiffs 1 0 = 1 := by
    decide
  have cc11 : changeCount [0, 1, 2] [(0:ℤ), 3600] bugDiffs 1 1 = 1 := by
    decide
  have cc20 : changeCount [0, 1, 2] [(0:ℤ), 3600] bugDiffs 2 0 = 0 := by
    decide
  have cc21 : changeCount [0, 1, 2] [(0:ℤ), 3600] bugDiffs 2 1 = 2 := by
    decide
  simp only [Changes.from_diffs, hrows, hcols]
  unfold bugChanges bugMatrix
  have hmtx : (fun r c =>
      ((changeCount [0, 1, 2] [(0:ℤ), 3600] bugDiffs r c : ℕ) : ℝ)) =
      (fun r c =>
        ((([[1, 0], [1, 1], [0, 2]] : List (List ℕ)).getD r []).getD c 0
          : ℝ)) := by
    funext r c
    by_cases hr3 : 3 ≤ r
    · rw [changeCount_eq_zero_of_ge _ _ _ _ _ (by simpa using hr3)]
      rw [show ([[1, 0], [1, 1], [0, 2]] : List (List ℕ)).getD r [] = []
        from List.getD_eq_default _ _ (by simpa using hr3)]
      simp
    · by_cases hc2 : 2 ≤ c
      · rw [changeCount_eq_zero_of_col_ge _ _ _ _ _ (by simpa using hc2)]
        have hcases : r = 0 ∨ r = 1 ∨ r = 2 := by omega
        rcases hcases with rfl | rfl | rfl <;>
          (rw [List.getD_eq_default]; simp [hc2])
      · have hcases : r = 0 ∨ r = 1 ∨ r = 2 := by omega
        have hccases : c = 0 ∨ c = 1 := by omega
        rcases hcases with rfl | rfl | rfl <;>
          rcases hccases with rfl | rfl <;>
          simp [cc00, cc01, cc10, cc11, cc20, cc21]
  congr 1
  · rw [hmtx]
  · funext i
    by_cases hi3 : i < 3
    · have hcases : i = 0 ∨ i = 1 ∨ i = 2 := by omega
      rcases hcases with rfl | rfl | rfl <;>
        · simp only [NamedMatrix.rowSum, List.length_cons, List.length_nil]
          norm_num [Finset.sum_range_succ, cc00, cc01, cc10, cc11, cc20,
            cc21]
    · have hge : (3:ℕ) ≤ i := by omega
      simp only [List.length_cons, List.length_nil]
      rw [if_neg (by omega)]
      rw [List.getD_eq_default _ _ (by simpa using hge)]
      simp
  · funext i
    by_cases hi3 : i < 3
    · have hcases : i = 0 ∨ i = 1 ∨ i = 2 := by omega
      rcases hcases with rfl | rfl | rfl <;>
        · simp only [NamedMatrix.rowSum, List.length_cons, List.length_nil]
          norm_num [Finset.sum_range_succ, cc00, cc01, cc10, cc11, cc20,
            cc21]
    · have hge : (3:ℕ) ≤ i := by omega
      simp only [List.length_cons, List.length_nil]
      rw [if_neg (by omega)]
      rw [List.getD_eq_default _ _ (by simpa using hge)]
      simp

/-- C6: from_diffs computes, for every row, a change count equal to the
row sum of the changes matrix (an integer-valued double truncated to an
integer) and a prior equal to that row sum divided by the number of rows
(the number of files, not the number of bins). -/
theorem C6_c_freq_and_c_prob {L : Type} [DecidableEq L] [LinearOrder L]
    (diffs : GroupedBetterDiffs L) (i : ℕ) :
    (((Changes.from_diffs diffs).c_freq i : ℝ) =
      (Changes.from_diffs diffs).freqs.rowSum i) ∧
    (Changes.from_diffs diffs).c_prob i =
      ((Changes.from_diffs diffs).c_freq i : ℝ) /
        ((Changes.from_diffs diffs).freqs.row_names.length : ℝ) := by
  simp only [Changes.from_diffs, NamedMatrix.rowSum]
  set rows := dedupAdj (sortList ((diffs.map Prod.snd).flatten)) with hrowsdef
  set cols := dedupAdj (sortList (diffs.map Prod.fst)) with hcolsdef
  have hNat : (∑ j ∈ Finset.range cols.length,
      ((changeCount rows cols diffs i j : ℕ) : ℝ)) =
      ((∑ j ∈ Finset.range cols.length,
        changeCount rows cols diffs i j : ℕ) : ℝ) := (Nat.cast_sum _ _).symm
  have hzero : rows.length ≤ i →
      (∑ j ∈ Finset.range cols.length,
        changeCount rows cols diffs i j) = 0 := fun hge =>
    Finset.sum_eq_zero
      (fun j _ => changeCount_eq_zero_of_ge rows cols diffs i j hge)
  constructor
  · by_cases hil : i < rows.length
    · simp only [hil, if_true]
      rw [hNat, Int.floor_natCast]
      push_cast
      rfl
    · simp only [hil, if_false]
      rw [hNat, hzero (not_lt.mp hil)]
      simp
  · by_cases hil : i < rows.length
    · simp only [hil, if_true]
      rw [hNat, Int.floor_natCast]
      push_cast
      rfl
    · simp only [hil, if_false]
      simp

theorem bugMatrix_rowSums :
    bugMatrix.rowSum 0 = 1 ∧ bugMatrix.rowSum 1 = 2 ∧
      bugMatrix.rowSum 2 = 2 := by
  refine ⟨?_, ?_, ?_⟩ <;>
    norm_num [NamedMatrix.rowSum, bugMatrix, Finset.sum_range_succ]

theorem filtRowNames_bugMatrix : filtRowNames bugMatrix 2 = [1, 2] := by
  have hi0 : bugMatrix.index_of_row 0 = some 0 := by decide
  have hi1 : bugMatrix.index_of_row 1 = some 1 := by decide
  have hi2 : bugMatrix.index_of_row 2 = some 2 := by decide
  have hf0 : cdecide (((2:ℕ) : ℝ) ≤ bugMatrix.rowSum 0) = false :=
    (cdecide_eq_false_iff _).mpr
      (by rw [bugMatrix_rowSums.1]; norm_num)
  have hf1 : cdecide (((2:ℕ) : ℝ) ≤ bugMatrix.rowSum 1) = true :=
    (cdecide_eq_true_iff _).mpr
      (by rw [bugMatrix_rowSums.2.1]; norm_num)
  have hf2 : cdecide (((2:ℕ) : ℝ) ≤ bugMatrix.rowSum 2) = true :=
    (cdecide_eq_true_iff _).mpr
      (by rw [bugMatrix_rowSums.2.2]; norm_num)
  unfold filtRowNames
  rw [show bugMatrix.row_names = [0, 1, 2] from rfl]
  simp only [List.filter, hi0, hi1, hi2, hf0, hf1, hf2]

/-- C1: refuted on the code.  At the grouped-diff input `bugDiffs` with
changes_min 2 and freq_min 0, the filtered label set is [1, 2], so the
entry of the pre-floor frequency matrix at position (0, 1) carries row
label 1 and column label 2; the claim says it equals the co-change
coefficient computed from the rows of files 1 and 2 of the changes
matrix, which is 0, but calculate_freqs reads the rows at the
positional indices 0 and 1 of the unfiltered matrix and writes 1. -/
theorem C1_naive_freqs_row_misindex :
    filtRowNames (Changes.from_diffs bugDiffs).freqs 2 = [1, 2] ∧
    (NaiveModel.calculate_freqs_pre (Changes.from_diffs bugDiffs)
        ⟨2, 0, ModelTypes.naive⟩).matrix 0 1 = 1 ∧
    NaiveModel.cc_coefficient
        (Changes.from_diffs bugDiffs).freqs.col_names.length
        ((Changes.from_diffs bugDiffs).freqs.matrix 1)
        ((Changes.from_diffs bugDiffs).freqs.matrix 2)
        (NaiveModel.dates_distance
          (Changes.from_diffs bugDiffs).freqs.col_names Real.sqrt) = 0 ∧
    (NaiveModel.calculate_freqs_pre (Changes.from_diffs bugDiffs)
        ⟨2, 0, ModelTypes.naive⟩).matrix 0 1 ≠
      NaiveModel.cc_coefficient
        (Changes.from_diffs bugDiffs).freqs.col_names.length
        ((Changes.from_diffs bugDiffs).freqs.matrix 1)
        ((Changes.from_diffs bugDiffs).freqs.matrix 2)
        (NaiveModel.dates_distance
          (Changes.from_diffs bugDiffs).freqs.col_names Real.sqrt) := by
  rw [from_diffs_bugDiffs]
  have hfr : bugChanges.freqs = bugMatrix := rfl
  rw [hfr]
  have m00 : bugMatrix.matrix 0 0 = 1 := by norm_num [bugMatrix]
  have m01 : bugMatrix.matrix 0 1 = 0 := by norm_num [bugMatrix]
  have m10 : bugMatrix.matrix 1 0 = 1 := by norm_num [bugMatrix]
  have m11 : bugMatrix.matrix 1 1 = 1 := by norm_num [bugMatrix]
  have m20 : bugMatrix.matrix 2 0 = 0 := by norm_num [bugMatrix]
  have m21 : bugMatrix.matrix 2 1 = 2 := by norm_num [bugMatrix]
  have hdd00 : NaiveModel.dates_distance bugMatrix.col_names Real.sqrt 0 0
      = 1 := by
    unfold NaiveModel.dates_distance
    norm_num [Real.sqrt_one]
  have hlen : bugMatrix.col_names.length = 2 := rfl
  have hcoef01 : NaiveModel.cc_coefficient 2 (bugMatrix.matrix 0)
      (bugMatrix.matrix 1)
      (NaiveModel.dates_distance bugMatrix.col_names Real.sqrt) = 1 := by
    unfold NaiveModel.cc_coefficient
    simp only [Finset.sum_range_succ, Finset.sum_range_zero,
      Finset.sum_range_one]
    rw [m00, m01, m10, m11, hdd00]
    norm_num
  have hcoef12 : NaiveModel.cc_coefficient 2 (bugMatrix.matrix 1)
      (bugMatrix.matrix 2)
      (NaiveModel.dates_distance bugMatrix.col_names Real.sqrt) = 0 := by
    unfold NaiveModel.cc_coefficient
    simp only [Finset.sum_range_succ, Finset.sum_range_zero,
      Finset.sum_range_one]
    rw [m10, m11, m20, m21]
    norm_num
  have hpre : (NaiveModel.calculate_freqs_pre bugChanges
      ⟨2, 0, ModelTypes.naive⟩).matrix 0 1 = 1 := by
    unfold NaiveModel.calculate_freqs_pre
    simp only [hfr, filtRowNames_bugMatrix, List.length_cons,
      List.length_nil, hlen]
    rw [if_pos (by norm_num)]
    exact hcoef01
  refine ⟨filtRowNames_bugMatrix, hpre, by rw [hlen]; exact hcoef12, ?_⟩
  rw [hpre, hlen, hcoef12]
  norm_num

end Ccan
